import Mathlib

/-
  Verification of the MCTS engine of rl_agents
  (src/rl_agents/agents/tree_search/mcts.py and robust.py).

  Shallow embedding conventions:
  - `Node` mirrors the Python `Node` class.  The Python `children` dict
    (insertion-ordered, unique keys) is an association list in insertion
    order; new children are appended at the end, exactly as dict insertion.
    The non-owning `parent` back-reference is not a field: the tree shape
    itself provides it, and operations that walk parents (update_branch)
    are embedded as operations on the root-to-node path.
  - Python floats are embedded as exact rationals.
  - Fallible code (a lookup that would raise KeyError / IndexError) is
    embedded as an Option-returning function, with none for the raise.
-/

namespace RLAgents

/-- An MCTS tree node (mcts.py, class Node): prior probability, visit
count, value estimate and the insertion-ordered child map. -/
inductive Node : Type where
  | mk (prior : ℚ) (count : ℕ) (value : ℚ) (children : List (ℕ × Node))

/-- Field accessor mirroring `self.prior`. -/
def Node.prior : Node → ℚ
  | .mk p _ _ _ => p

/-- Field accessor mirroring `self.count`. -/
def Node.count : Node → ℕ
  | .mk _ c _ _ => c

/-- Field accessor mirroring `self.value`. -/
def Node.value : Node → ℚ
  | .mk _ _ v _ => v

/-- Field accessor mirroring `self.children`. -/
def Node.children : Node → List (ℕ × Node)
  | .mk _ _ _ ch => ch

@[simp] theorem Node.prior_mk (p : ℚ) (c : ℕ) (v : ℚ) (ch : List (ℕ × Node)) :
    (Node.mk p c v ch).prior = p := rfl

@[simp] theorem Node.count_mk (p : ℚ) (c : ℕ) (v : ℚ) (ch : List (ℕ × Node)) :
    (Node.mk p c v ch).count = c := rfl

@[simp] theorem Node.value_mk (p : ℚ) (c : ℕ) (v : ℚ) (ch : List (ℕ × Node)) :
    (Node.mk p c v ch).value = v := rfl

@[simp] theorem Node.children_mk (p : ℚ) (c : ℕ) (v : ℚ) (ch : List (ℕ × Node)) :
    (Node.mk p c v ch).children = ch := rfl

/-- Dict lookup `children[a]`, none for a missing key (KeyError). -/
def lookupA (a : ℕ) : List (ℕ × Node) → Option Node
  | [] => none
  | kv :: t => if kv.1 = a then some kv.2 else lookupA a t

/-- Dict membership test `a in children`. -/
def hasKey (a : ℕ) (l : List (ℕ × Node)) : Bool :=
  (lookupA a l).isSome

@[simp] theorem lookupA_nil (a : ℕ) : lookupA a [] = none := rfl

theorem lookupA_cons (a : ℕ) (kv : ℕ × Node) (t : List (ℕ × Node)) :
    lookupA a (kv :: t) = if kv.1 = a then some kv.2 else lookupA a t := rfl

/-- The value function first-order filter gain `Node.K` (mcts.py line 15). -/
def Node.K : ℚ := 1

/-- Python `Node.update` (mcts.py lines 59-66):
`self.count += 1; self.value += self.K / self.count * (total_reward - self.value)`. -/
def Node.update (n : Node) (total_reward : ℚ) : Node :=
  Node.mk n.prior (n.count + 1)
    (n.value + Node.K / ((n.count : ℚ) + 1) * (total_reward - n.value))
    n.children

/-- Python `Node.selection_strategy` (mcts.py lines 86-97):
`self.value + temperature*self.prior/(self.count+1)`.  (The source first
returns `self.value` for a parentless node; `select_action` only evaluates
this on children, which always have a parent, so the formula branch is the
one embedded.) -/
def Node.selection_strategy (n : Node) (temperature : ℚ) : ℚ :=
  n.value + temperature * n.prior / ((n.count : ℚ) + 1)

/-- Python `max(iterable, key=f)`: the first element attaining the maximum
of `f`, none on an empty iterable (ValueError). -/
def pymax {α β : Type} [LinearOrder β] (f : α → β) : List α → Option α
  | [] => none
  | x :: xs => some (xs.foldl (fun b a => if f b < f a then a else b) x)

/-- Python `Node.select_action` (mcts.py lines 31-46): with children, the
max-visit-count child key at temperature 0, otherwise the key maximising
`selection_strategy`; none with no children.  Maximising over the keys of
an insertion-ordered dict by a function of `children[key]` is maximising
over the (key, child) pairs by a function of the pair's second component. -/
def Node.select_action (n : Node) (temperature : ℚ) : Option ℕ :=
  if n.children.isEmpty then none
  else if temperature = 0 then
    (pymax (fun kv : ℕ × Node => kv.2.count) n.children).map (fun kv => kv.1)
  else
    (pymax (fun kv : ℕ × Node => kv.2.selection_strategy temperature) n.children).map
      (fun kv => kv.1)

/-- The loop of Python `Node.expand` (mcts.py lines 48-57) over the action
list, consuming the probability list in lockstep (index `i` walks both).
`probabilities[i]` is only read when a new child is created, so a missing
probability (IndexError, embedded as none) only occurs then.  A new child
`Node(self, probabilities[i])` has the given prior, count 0, value 0 and
no children, and is appended in dict insertion order. -/
def expandGo : List (ℕ × Node) → List ℕ → List ℚ → Option (List (ℕ × Node))
  | ch, [], _ => some ch
  | ch, a :: acts, [] =>
    if hasKey a ch then expandGo ch acts [] else none
  | ch, a :: acts, p :: ps =>
    if hasKey a ch then expandGo ch acts ps
    else expandGo (ch ++ [(a, Node.mk p 0 0 [])]) acts ps

/-- Python `Node.expand` (mcts.py lines 48-57). -/
def Node.expand (n : Node) (actions_distribution : List ℕ × List ℚ) : Option Node :=
  (expandGo n.children actions_distribution.1 actions_distribution.2).map
    (fun ch => Node.mk n.prior n.count n.value ch)

/- ------------------------------------------------------------------ -/
/- Helper lemmas                                                      -/
/- ------------------------------------------------------------------ -/

theorem foldl_update_general (rs : List ℚ) :
    ∀ (p : ℚ) (c : ℕ) (v : ℚ) (ch : List (ℕ × Node)),
      (rs.foldl (fun m r => Node.update m r) (Node.mk p c v ch)).count = c + rs.length ∧
      (rs.foldl (fun m r => Node.update m r) (Node.mk p c v ch)).value *
          ((c : ℚ) + rs.length) = (c : ℚ) * v + rs.sum := by
  induction rs with
  | nil =>
    intro p c v ch
    constructor
    · simp
    · simp [Node.value]
      ring
  | cons r rs ih =>
    intro p c v ch
    have hupd : Node.update (Node.mk p c v ch) r =
        Node.mk p (c + 1) (v + Node.K / ((c : ℚ) + 1) * (r - v)) ch := rfl
    have hc1 : ((c : ℚ) + 1) ≠ 0 := by positivity
    obtain ⟨h1, h2⟩ := ih p (c + 1) (v + Node.K / ((c : ℚ) + 1) * (r - v)) ch
    constructor
    · rw [List.foldl_cons, hupd, h1]
      simp
      omega
    · rw [List.foldl_cons, hupd]
      have hv : ((c : ℚ) + 1) * (v + Node.K / ((c : ℚ) + 1) * (r - v)) =
          (c : ℚ) * v + r := by
        field_simp [Node.K]
        ring
      simp only [List.length_cons, List.sum_cons]
      push_cast at h2 ⊢
      linear_combination h2 + hv

/- ------------------------------------------------------------------ -/
/- Claim C1                                                           -/
/- ------------------------------------------------------------------ -/

/-- C1: for every freshly created node (visit count 0, value 0, as built
by `Node.__init__`), folding `update` over a list of `N` rewards leaves the
visit count equal to `N` and the value equal to the exact arithmetic mean
of the rewards — the recurrence `value += (reward - value) / count` with
the filter gain `K` fixed at 1, no exponential decay. -/
theorem update_running_mean (n : Node) (rs : List ℚ)
    (h0 : n.count = 0) (h1 : n.value = 0) :
    Node.K = 1 ∧
    (rs.foldl (fun m r => Node.update m r) n).count = rs.length ∧
    (rs.foldl (fun m r => Node.update m r) n).value = rs.sum / (rs.length : ℚ) := by
  obtain ⟨p, c, v, ch⟩ := n
  simp [Node.count, Node.value] at h0 h1
  subst h0; subst h1
  obtain ⟨hcount, hvalue⟩ := foldl_update_general rs p 0 0 ch
  refine ⟨rfl, by simpa using hcount, ?_⟩
  rcases rs with _ | ⟨r, rs'⟩
  · simp [Node.value]
  · have hlen : (((r :: rs').length : ℚ)) ≠ 0 := by
      simp only [List.length_cons]
      push_cast
      positivity
    rw [eq_div_iff hlen]
    simp only [List.length_cons, List.sum_cons] at hvalue ⊢
    push_cast at hvalue ⊢
    linear_combination hvalue

/-- Witness for C1 at a concrete fresh node and the rewards [3, 5]. -/
theorem update_running_mean_witness :
    (([3, 5] : List ℚ).foldl (fun m r => Node.update m r) (Node.mk 1 0 0 [])).count =
        ([3, 5] : List ℚ).length ∧
    (([3, 5] : List ℚ).foldl (fun m r => Node.update m r) (Node.mk 1 0 0 [])).value =
        ([3, 5] : List ℚ).sum / ((([3, 5] : List ℚ).length : ℚ)) := by
  have h := update_running_mean (Node.mk 1 0 0 []) [3, 5] rfl rfl
  exact ⟨h.2.1, h.2.2⟩

/-- Python `max(key=f)` over a nonempty list via foldl: the result is in
the list, maximal for `f`, and strictly above everything inserted before
it (first-maximum tie-break). -/
theorem pymax_foldl {α β : Type} [LinearOrder β] (f : α → β) :
    ∀ (xs : List α) (b : α), ∃ r pre post,
      xs.foldl (fun x y => if f x < f y then y else x) b = r ∧
      b :: xs = pre ++ r :: post ∧
      (∀ z ∈ b :: xs, f z ≤ f r) ∧
      (∀ z ∈ pre, f z < f r) := by
  intro xs
  induction xs with
  | nil =>
    intro b
    exact ⟨b, [], [], rfl, rfl, by simp, by simp⟩
  | cons a t ih =>
    intro b
    by_cases hba : f b < f a
    · obtain ⟨r, pre, post, hfold, hdec, hmax, hstrict⟩ := ih a
      refine ⟨r, b :: pre, post, ?_, ?_, ?_, ?_⟩
      · simpa [hba] using hfold
      · simpa using congrArg (b :: ·) hdec
      · intro z hz
        have har : f a ≤ f r := hmax a (by simp)
        rcases List.mem_cons.mp hz with hz | hz
        · subst hz; exact le_of_lt (lt_of_lt_of_le hba har)
        · exact hmax z hz
      · intro z hz
        rcases List.mem_cons.mp hz with hz | hz
        · subst hz
          exact lt_of_lt_of_le hba (hmax a (by simp))
        · exact hstrict z hz
    · obtain ⟨r, pre, post, hfold, hdec, hmax, hstrict⟩ := ih b
      have hab : f a ≤ f b := not_lt.mp hba
      have hfold' : (a :: t).foldl (fun x y => if f x < f y then y else x) b = r := by
        simpa [hba] using hfold
      rcases pre with _ | ⟨p₀, pre'⟩
      · simp only [List.nil_append, List.cons.injEq] at hdec
        obtain ⟨hbr, hpost⟩ := hdec
        refine ⟨r, [], a :: t, hfold', by simp [hbr], ?_, by simp⟩
        intro z hz
        rcases List.mem_cons.mp hz with hz | hz
        · rw [hz]; exact hmax b (by simp)
        · rcases List.mem_cons.mp hz with hz | hz
          · rw [hz]; exact le_trans hab (hmax b (by simp))
          · exact hmax z (by simp [hz])
      · have hp : b = p₀ ∧ t = pre' ++ r :: post := by
          simp only [List.cons_append, List.cons.injEq] at hdec
          exact hdec
        obtain ⟨hp₀, htail⟩ := hp
        refine ⟨r, b :: a :: pre', post, hfold', by simp [htail], ?_, ?_⟩
        · intro z hz
          rcases List.mem_cons.mp hz with hz | hz
          · rw [hz]; exact hmax b (by simp)
          · rcases List.mem_cons.mp hz with hz | hz
            · rw [hz]; exact le_trans hab (hmax b (by simp))
            · exact hmax z (by simp [hz])
        · intro z hz
          have hbr : f b < f r := by
            have := hstrict p₀ (by simp)
            rwa [hp₀]
          rcases List.mem_cons.mp hz with hz | hz
          · rw [hz]; exact hbr
          · rcases List.mem_cons.mp hz with hz | hz
            · rw [hz]; exact lt_of_le_of_lt hab hbr
            · exact hstrict z (by simp [hz])

/-- Specification of `pymax` on a nonempty list. -/
theorem pymax_spec {α β : Type} [LinearOrder β] (f : α → β) (l : List α)
    (hl : l ≠ []) :
    ∃ x pre post, pymax f l = some x ∧ l = pre ++ x :: post ∧
      (∀ z ∈ l, f z ≤ f x) ∧ (∀ z ∈ pre, f z < f x) := by
  rcases l with _ | ⟨b, xs⟩
  · exact absurd rfl hl
  · obtain ⟨r, pre, post, hfold, hdec, hmax, hstrict⟩ := pymax_foldl f xs b
    exact ⟨r, pre, post, by simp [pymax, hfold], hdec, hmax, hstrict⟩

/- ------------------------------------------------------------------ -/
/- Claim C3                                                           -/
/- ------------------------------------------------------------------ -/

/-- C3: `select_action` returns none on a childless node; at temperature
0 it returns the key of the child with maximal visit count, every child
inserted earlier having a strictly smaller count (first-inserted
tie-break); at a nonzero temperature it returns the key of the child
maximising `value + temperature * prior / (count + 1)`, again with the
first-maximum tie-break of Python's `max`. -/
theorem select_action_spec (n : Node) (temperature : ℚ) :
    (n.children = [] → n.select_action temperature = none) ∧
    (n.children ≠ [] →
      ∃ a c pre post, n.select_action 0 = some a ∧
        n.children = pre ++ (a, c) :: post ∧
        (∀ kv ∈ n.children, kv.2.count ≤ c.count) ∧
        (∀ kv ∈ pre, kv.2.count < c.count)) ∧
    (n.children ≠ [] → temperature ≠ 0 →
      ∃ a c pre post, n.select_action temperature = some a ∧
        n.children = pre ++ (a, c) :: post ∧
        (∀ kv ∈ n.children, kv.2.selection_strategy temperature ≤
          c.selection_strategy temperature) ∧
        (∀ kv ∈ pre, kv.2.selection_strategy temperature <
          c.selection_strategy temperature)) := by
  refine ⟨?_, ?_, ?_⟩
  · intro h
    simp [Node.select_action, h]
  · intro h
    obtain ⟨x, pre, post, hmax, hdec, hle, hlt⟩ :=
      pymax_spec (fun kv : ℕ × Node => kv.2.count) n.children h
    refine ⟨x.1, x.2, pre, post, ?_, by simpa using hdec, hle, hlt⟩
    have hne : n.children.isEmpty = false := by
      simp [List.isEmpty_iff, h]
    simp [Node.select_action, hne, hmax]
  · intro h htemp
    obtain ⟨x, pre, post, hmax, hdec, hle, hlt⟩ :=
      pymax_spec (fun kv : ℕ × Node => kv.2.selection_strategy temperature)
        n.children h
    refine ⟨x.1, x.2, pre, post, ?_, by simpa using hdec, hle, hlt⟩
    have hne : n.children.isEmpty = false := by
      simp [List.isEmpty_iff, h]
    simp [Node.select_action, hne, htemp, hmax]

/-- A concrete node for the C3 witness: three children with counts 2, 5, 5
inserted in that order. -/
def nSel : Node :=
  Node.mk 1 0 0 [(0, Node.mk 1 2 0 []), (1, Node.mk 1 5 0 []), (2, Node.mk 1 5 0 [])]

/-- Witness for C3: both selection modes return an action on a concrete
node with children, and selection on a childless node returns none. -/
theorem select_action_spec_witness :
    nSel.select_action 0 ≠ none ∧ nSel.select_action 10 ≠ none ∧
    (Node.mk 1 0 0 []).select_action 10 = none := by
  refine ⟨?_, ?_, ?_⟩
  · obtain ⟨a, c, pre, post, hsel, _⟩ :=
      (select_action_spec nSel 0).2.1 (by simp [nSel])
    simp [hsel]
  · obtain ⟨a, c, pre, post, hsel, _⟩ :=
      (select_action_spec nSel 10).2.2 (by simp [nSel]) (by norm_num)
    simp [hsel]
  · exact (select_action_spec (Node.mk 1 0 0 []) 10).1 rfl

theorem lookupA_append_left (a : ℕ) (l₁ l₂ : List (ℕ × Node)) (c : Node)
    (h : lookupA a l₁ = some c) : lookupA a (l₁ ++ l₂) = some c := by
  induction l₁ with
  | nil => simp [lookupA] at h
  | cons kv t ih =>
    rw [lookupA_cons] at h
    by_cases hk : kv.1 = a
    · simp [lookupA_cons, hk] at h ⊢
      exact h
    · simp only [lookupA_cons, hk, if_false] at h
      simpa [lookupA_cons, hk] using ih h

theorem hasKey_append (a : ℕ) (l₁ l₂ : List (ℕ × Node)) :
    hasKey a (l₁ ++ l₂) = (hasKey a l₁ || hasKey a l₂) := by
  induction l₁ with
  | nil => simp [hasKey, lookupA]
  | cons kv t ih =>
    by_cases hk : kv.1 = a
    · simp [hasKey, lookupA_cons, hk]
    · simpa [hasKey, lookupA_cons, hk] using ih

theorem hasKey_single (a b : ℕ) (c : Node) (h : hasKey b [(a, c)] = true) :
    a = b := by
  by_cases hab : a = b
  · exact hab
  · simp [hasKey, lookupA, hab] at h

/-- Every successful run of the expansion loop only appends new entries:
the original children are an unchanged initial segment. -/
theorem expandGo_append :
    ∀ (acts : List ℕ) (ch : List (ℕ × Node)) (ps : List ℚ) (ch' : List (ℕ × Node)),
      expandGo ch acts ps = some ch' → ∃ ext, ch' = ch ++ ext := by
  intro acts
  induction acts with
  | nil =>
    intro ch ps ch' h
    simp [expandGo] at h
    exact ⟨[], by simp [← h]⟩
  | cons a acts ih =>
    intro ch ps ch' h
    rcases ps with _ | ⟨p, ps⟩
    · cases hk : hasKey a ch
      · simp [expandGo, hk] at h
      · simp only [expandGo, hk, if_true] at h
        exact ih ch [] ch' h
    · cases hk : hasKey a ch
      · simp only [expandGo, hk, Bool.false_eq_true, if_false] at h
        obtain ⟨ext, hext⟩ := ih _ ps ch' h
        exact ⟨(a, Node.mk p 0 0 []) :: ext, by simp [hext]⟩
      · simp only [expandGo, hk, if_true] at h
        exact ih ch ps ch' h

theorem expandGo_hasKey_mono (acts : List ℕ) (ch : List (ℕ × Node)) (ps : List ℚ)
    (ch' : List (ℕ × Node)) (h : expandGo ch acts ps = some ch') (b : ℕ)
    (hb : hasKey b ch = true) : hasKey b ch' = true := by
  obtain ⟨ext, hext⟩ := expandGo_append acts ch ps ch' h
  rw [hext, hasKey_append, hb]
  simp

/-- Keys after the expansion loop: old keys, or actions from the supplied
distribution — a child is created only for a supplied action it lacked. -/
theorem expandGo_keys :
    ∀ (acts : List ℕ) (ch : List (ℕ × Node)) (ps : List ℚ) (ch' : List (ℕ × Node)),
      expandGo ch acts ps = some ch' →
      ∀ b, hasKey b ch' = true → hasKey b ch = true ∨ b ∈ acts := by
  intro acts
  induction acts with
  | nil =>
    intro ch ps ch' h b hb
    simp [expandGo] at h
    rw [h]
    exact Or.inl hb
  | cons a acts ih =>
    intro ch ps ch' h b hb
    rcases ps with _ | ⟨p, ps⟩
    · cases hk : hasKey a ch
      · simp [expandGo, hk] at h
      · simp only [expandGo, hk, if_true] at h
        rcases ih ch [] ch' h b hb with h' | h'
        · exact Or.inl h'
        · exact Or.inr (by simp [h'])
    · cases hk : hasKey a ch
      · simp only [expandGo, hk, Bool.false_eq_true, if_false] at h
        rcases ih _ ps ch' h b hb with h' | h'
        · rw [hasKey_append] at h'
          rcases Bool.or_eq_true_iff.mp h' with h' | h'
          · exact Or.inl h'
          · exact Or.inr (by simp [hasKey_single a b _ h'])
        · exact Or.inr (by simp [h'])
      · simp only [expandGo, hk, if_true] at h
        rcases ih ch ps ch' h b hb with h' | h'
        · exact Or.inl h'
        · exact Or.inr (by simp [h'])

/-- After a successful expansion, every supplied action has a child. -/
theorem expandGo_allKeys :
    ∀ (acts : List ℕ) (ch : List (ℕ × Node)) (ps : List ℚ) (ch' : List (ℕ × Node)),
      expandGo ch acts ps = some ch' → ∀ b ∈ acts, hasKey b ch' = true := by
  intro acts
  induction acts with
  | nil =>
    intro ch ps ch' _ b hb
    simp at hb
  | cons a acts ih =>
    intro ch ps ch' h b hb
    rcases ps with _ | ⟨p, ps⟩
    · cases hk : hasKey a ch
      · simp [expandGo, hk] at h
      · simp only [expandGo, hk, if_true] at h
        rcases List.mem_cons.mp hb with hb | hb
        · rw [hb]
          exact expandGo_hasKey_mono acts ch [] ch' h a hk
        · exact ih ch [] ch' h b hb
    · cases hk : hasKey a ch
      · simp only [expandGo, hk, Bool.false_eq_true, if_false] at h
        rcases List.mem_cons.mp hb with hb | hb
        · rw [hb]
          refine expandGo_hasKey_mono acts _ ps ch' h a ?_
          rw [hasKey_append, hk]
          simp [hasKey, lookupA]
        · exact ih _ ps ch' h b hb
      · simp only [expandGo, hk, if_true] at h
        rcases List.mem_cons.mp hb with hb | hb
        · rw [hb]
          exact expandGo_hasKey_mono acts ch ps ch' h a hk
        · exact ih ch ps ch' h b hb

/-- The expansion loop is the identity when every supplied action already
has a child (no probability is even read then). -/
theorem expandGo_noop :
    ∀ (acts : List ℕ) (ch : List (ℕ × Node)) (ps : List ℚ),
      (∀ a ∈ acts, hasKey a ch = true) → expandGo ch acts ps = some ch := by
  intro acts
  induction acts with
  | nil => intro ch ps _; rfl
  | cons a acts ih =>
    intro ch ps hall
    have ha : hasKey a ch = true := hall a (by simp)
    rcases ps with _ | ⟨p, ps⟩
    · simp only [expandGo, ha, if_true]
      exact ih ch [] (fun b hb => hall b (by simp [hb]))
    · simp only [expandGo, ha, if_true]
      exact ih ch ps (fun b hb => hall b (by simp [hb]))

/- ------------------------------------------------------------------ -/
/- Claim C4                                                           -/
/- ------------------------------------------------------------------ -/

/-- C4: a successful `expand` leaves every pre-existing child untouched
(the whole child node — visit count, value, prior and children — is
preserved under the same key), creates children only for supplied actions
that had none, and a second `expand` with the same distribution returns
the node unchanged (idempotence). -/
theorem expand_idempotent (n n' : Node) (acts : List ℕ) (ps : List ℚ)
    (h : n.expand (acts, ps) = some n') :
    (∀ a c, lookupA a n.children = some c → lookupA a n'.children = some c) ∧
    (∀ a, hasKey a n'.children = true → hasKey a n.children = true ∨ a ∈ acts) ∧
    n'.expand (acts, ps) = some n' := by
  rw [Node.expand, Option.map_eq_some'] at h
  obtain ⟨ch', hgo, hn'⟩ := h
  have hch : n'.children = ch' := by rw [← hn']; simp
  refine ⟨?_, ?_, ?_⟩
  · intro a c hc
    obtain ⟨ext, hext⟩ := expandGo_append acts n.children ps ch' hgo
    rw [hch, hext]
    exact lookupA_append_left a n.children ext c hc
  · intro a ha
    rw [hch] at ha
    exact expandGo_keys acts n.children ps ch' hgo a ha
  · have hall : ∀ a ∈ acts, hasKey a ch' = true :=
      expandGo_allKeys acts n.children ps ch' hgo
    rw [Node.expand, hch, expandGo_noop acts ch' ps hall]
    rw [← hn']
    rfl

/-- Concrete input node for the C4 witness. -/
def nExp : Node := Node.mk 1 0 0 [(0, Node.mk 1 2 3 [])]

/-- Concrete output node for the C4 witness. -/
def nExp2 : Node := Node.mk 1 0 0 [(0, Node.mk 1 2 3 []), (1, Node.mk (1/2) 0 0 [])]

/-- Witness for C4: expanding a node that already has a child for action 0
keeps that child bit-for-bit and re-expansion is the identity. -/
theorem expand_idempotent_witness :
    lookupA 0 nExp2.children = some (Node.mk 1 2 3 []) ∧
    nExp2.expand ([0, 1], [1/2, 1/2]) = some nExp2 := by
  have h : nExp.expand ([0, 1], [1/2, 1/2]) = some nExp2 := rfl
  obtain ⟨h1, _h2, h3⟩ := expand_idempotent nExp nExp2 [0, 1] [1/2, 1/2] h
  exact ⟨h1 0 (Node.mk 1 2 3 []) rfl, h3⟩

/- ------------------------------------------------------------------ -/
/- Claim C9                                                           -/
/- ------------------------------------------------------------------ -/

/-- A fresh childless node for the C9 statements. -/
def n9 : Node := Node.mk 1 0 0 []

/-- C9 counterexample: the engine performs no validation of the policy
output.  Expanding with the malformed distribution ([0], [-1]) — a
negative, non-normalised probability — is not rejected (no error path is
taken, the embedded `expand` succeeds) and silently creates a child whose
prior is the negative value. -/
theorem expand_no_validation_counterexample :
    Node.expand n9 ([0], [-1]) = some (Node.mk 1 0 0 [(0, Node.mk (-1) 0 0 [])]) ∧
    ((-1 : ℚ) < 0) := ⟨rfl, by norm_num⟩

/-- C9 amended: `expand` validates nothing.  Any probability value,
including negative or non-normalised ones, is silently installed as the
new child's prior; excess probabilities beyond the action list are
silently ignored; and a probability list shorter than the action list is
not detected up front — it surfaces only as an uncaught IndexError
(embedded as none) when the missing entry is read for a newly created
child. -/
theorem expand_no_validation_amended :
    (∀ q : ℚ, Node.expand n9 ([0], [q]) =
      some (Node.mk 1 0 0 [(0, Node.mk q 0 0 [])])) ∧
    (∀ q q' : ℚ, Node.expand n9 ([0], [q, q']) =
      some (Node.mk 1 0 0 [(0, Node.mk q 0 0 [])])) ∧
    Node.expand n9 ([0], []) = none :=
  ⟨fun _ => rfl, fun _ _ => rfl, rfl⟩

/-- Modify the entry of the (unique) child with a given key, leaving all
other entries untouched — the functional image of mutating one child in
the dict. -/
def mapChildFirst (a : ℕ) (f : Node → Node) : List (ℕ × Node) → List (ℕ × Node)
  | [] => []
  | kv :: t => if kv.1 = a then (kv.1, f kv.2) :: t else kv :: mapChildFirst a f t

/-- The local statistics (prior, count, value) of the node reached from a
root by following a path of actions; none if the path leaves the tree. -/
def Node.statsAt : Node → List ℕ → Option (ℚ × ℕ × ℚ)
  | n, [] => some (n.prior, n.count, n.value)
  | n, a :: q =>
    match lookupA a n.children with
    | none => none
    | some c => Node.statsAt c q

/-- Python `Node.update_branch` (mcts.py lines 76-84), embedded on the
root-to-node path: the node addressed by the path and every one of its
ancestors up to the root receive one `update(total_reward)`.  The source
walks the parent chain upward from the node; updating the same set of
nodes from the root downward is the identical transformation, because
each `update` only touches the local fields of its own node. -/
def Node.update_branch (total_reward : ℚ) : List ℕ → Node → Node
  | [], n => n.update total_reward
  | a :: q, n =>
    (Node.mk n.prior n.count n.value
      (mapChildFirst a (fun c => Node.update_branch total_reward q c) n.children)).update
      total_reward
termination_by p _ => p.length
decreasing_by simp

/-- The path `q` addresses the node at `p` or one of its ancestors. -/
def onPath (q p : List ℕ) : Prop := ∃ s, q ++ s = p

/-- The action of one `update` on a (prior, count, value) triple. -/
def updStats (r : ℚ) (st : ℚ × ℕ × ℚ) : ℚ × ℕ × ℚ :=
  (st.1, st.2.1 + 1, st.2.2 + Node.K / ((st.2.1 : ℚ) + 1) * (r - st.2.2))

@[simp] theorem Node.update_children (n : Node) (r : ℚ) :
    (n.update r).children = n.children := rfl

@[simp] theorem statsAt_nil (n : Node) :
    n.statsAt [] = some (n.prior, n.count, n.value) := rfl

theorem statsAt_cons_none (n : Node) (a : ℕ) (q : List ℕ)
    (h : lookupA a n.children = none) : n.statsAt (a :: q) = none := by
  simp [Node.statsAt, h]

theorem statsAt_cons_some (n : Node) (a : ℕ) (q : List ℕ) (c : Node)
    (h : lookupA a n.children = some c) : n.statsAt (a :: q) = c.statsAt q := by
  simp [Node.statsAt, h]

theorem lookupA_mapChildFirst_self (a : ℕ) (f : Node → Node) :
    ∀ l : List (ℕ × Node), lookupA a (mapChildFirst a f l) = (lookupA a l).map f := by
  intro l
  induction l with
  | nil => rfl
  | cons kv t ih =>
    by_cases hk : kv.1 = a
    · simp [mapChildFirst, lookupA_cons, hk]
    · simpa [mapChildFirst, lookupA_cons, hk] using ih

theorem lookupA_mapChildFirst_ne (a b : ℕ) (f : Node → Node) (h : b ≠ a) :
    ∀ l : List (ℕ × Node), lookupA b (mapChildFirst a f l) = lookupA b l := by
  intro l
  induction l with
  | nil => rfl
  | cons kv t ih =>
    by_cases hk : kv.1 = a
    · have hab : ¬ (a = b) := fun he => h he.symm
      simp [mapChildFirst, lookupA_cons, hk, hab]
    · by_cases hkb : kv.1 = b
      · simp [mapChildFirst, lookupA_cons, hk, hkb, h]
      · simpa [mapChildFirst, lookupA_cons, hk, hkb] using ih

theorem onPath_nil (p : List ℕ) : onPath [] p := ⟨p, rfl⟩

theorem onPath_cons_iff (x y : ℕ) (q p : List ℕ) :
    onPath (x :: q) (y :: p) ↔ x = y ∧ onPath q p := by
  constructor
  · rintro ⟨s, hs⟩
    simp only [List.cons_append, List.cons.injEq] at hs
    exact ⟨hs.1, s, hs.2⟩
  · rintro ⟨hxy, s, hs⟩
    exact ⟨s, by simp [hxy, hs]⟩

/- ------------------------------------------------------------------ -/
/- Claim C2                                                           -/
/- ------------------------------------------------------------------ -/

/-- C2: `update_branch(r)` on the node addressed by path `p` (a node at
depth `p.length`) applies exactly one `update r` to that node and to each
of its `p.length` ancestors up to the root — the nodes addressed by the
other initial segments of `p` — and leaves the statistics of every node
off that root path unchanged. -/
theorem update_branch_path (t : Node) (p : List ℕ) (r : ℚ) (q : List ℕ)
    (hp : (t.statsAt p).isSome = true) :
    (onPath q p → Node.statsAt (Node.update_branch r p t) q =
      (Node.statsAt t q).map (updStats r)) ∧
    (¬ onPath q p → Node.statsAt (Node.update_branch r p t) q =
      Node.statsAt t q) := by
  induction p generalizing t q with
  | nil =>
    constructor
    · intro hq
      rcases q with _ | ⟨b, q'⟩
      · simp [Node.update_branch, Node.update, updStats]
      · obtain ⟨s, hs⟩ := hq
        simp at hs
    · intro hq
      rcases q with _ | ⟨b, q'⟩
      · exact absurd (onPath_nil []) hq
      · rw [Node.update_branch]
        cases hcl : lookupA b t.children with
        | none =>
          rw [statsAt_cons_none _ _ _ (by simpa using hcl),
            statsAt_cons_none _ _ _ hcl]
        | some c =>
          rw [statsAt_cons_some _ _ _ c (by simpa using hcl),
            statsAt_cons_some _ _ _ c hcl]
  | cons a p' ih =>
    have hstep : Node.update_branch r (a :: p') t =
        (Node.mk t.prior t.count t.value
          (mapChildFirst a (fun c => Node.update_branch r p' c) t.children)).update
          r := by
      rw [Node.update_branch]
    cases hcl : lookupA a t.children with
    | none =>
      rw [statsAt_cons_none _ _ _ hcl] at hp
      simp at hp
    | some c =>
      have hp' : (c.statsAt p').isSome = true := by
        rwa [statsAt_cons_some _ _ _ c hcl] at hp
      constructor
      · intro hq
        rcases q with _ | ⟨b, q'⟩
        · simp [hstep, Node.update, updStats]
        · rw [onPath_cons_iff] at hq
          obtain ⟨hba, hq'⟩ := hq
          subst hba
          have hlk : lookupA b (Node.update_branch r (b :: p') t).children =
              some (Node.update_branch r p' c) := by
            rw [hstep, Node.update_children, Node.children_mk,
              lookupA_mapChildFirst_self, hcl]
            rfl
          rw [statsAt_cons_some _ _ _ _ hlk, statsAt_cons_some _ _ _ c hcl]
          exact (ih c q' hp').1 hq'
      · intro hq
        rcases q with _ | ⟨b, q'⟩
        · exact absurd (onPath_nil _) hq
        · by_cases hba : b = a
          · subst hba
            have hq' : ¬ onPath q' p' := by
              intro hc
              exact hq ((onPath_cons_iff b b q' p').mpr ⟨rfl, hc⟩)
            have hlk : lookupA b (Node.update_branch r (b :: p') t).children =
                some (Node.update_branch r p' c) := by
              rw [hstep, Node.update_children, Node.children_mk,
                lookupA_mapChildFirst_self, hcl]
              rfl
            rw [statsAt_cons_some _ _ _ _ hlk, statsAt_cons_some _ _ _ c hcl]
            exact (ih c q' hp').2 hq'
          · have hlk : lookupA b (Node.update_branch r (a :: p') t).children =
                lookupA b t.children := by
              rw [hstep, Node.update_children, Node.children_mk,
                lookupA_mapChildFirst_ne a b _ hba]
            cases hcl' : lookupA b t.children with
            | none =>
              rw [statsAt_cons_none _ _ _ (hlk.trans hcl'),
                statsAt_cons_none _ _ _ hcl']
            | some c' =>
              rw [statsAt_cons_some _ _ _ c' (hlk.trans hcl'),
                statsAt_cons_some _ _ _ c' hcl']

/-- Concrete tree for the C2 witness: a root with two children. -/
def tW : Node := Node.mk 1 0 0 [(0, Node.mk 1 0 0 []), (1, Node.mk 1 4 7 [])]

/-- Witness for C2 on `tW` with path [0] and reward 5: the addressed node
gets one update and the sibling at [1] is untouched. -/
theorem update_branch_path_witness :
    Node.statsAt (Node.update_branch 5 [0] tW) [0] =
      (Node.statsAt tW [0]).map (updStats 5) ∧
    Node.statsAt (Node.update_branch 5 [0] tW) [1] = Node.statsAt tW [1] := by
  have hvalid : (tW.statsAt [0]).isSome = true := by
    rw [statsAt_cons_some tW 0 [] (Node.mk 1 0 0 []) (by rfl)]
    rfl
  constructor
  · exact (update_branch_path tW [0] 5 [0] hvalid).1 ⟨[], rfl⟩
  · refine (update_branch_path tW [0] 5 [1] hvalid).2 ?_
    rintro ⟨s, hs⟩
    simp at hs

/-- Replace a node's prior, keeping all other fields. -/
def Node.withPrior (n : Node) (q : ℚ) : Node :=
  Node.mk q n.count n.value n.children

@[simp] theorem Node.withPrior_prior (n : Node) (q : ℚ) :
    (n.withPrior q).prior = q := rfl

@[simp] theorem Node.withPrior_count (n : Node) (q : ℚ) :
    (n.withPrior q).count = n.count := rfl

@[simp] theorem Node.withPrior_value (n : Node) (q : ℚ) :
    (n.withPrior q).value = n.value := rfl

@[simp] theorem Node.withPrior_children (n : Node) (q : ℚ) :
    (n.withPrior q).children = n.children := rfl

@[simp] theorem Node.withPrior_withPrior (n : Node) (q q' : ℚ) :
    (n.withPrior q).withPrior q' = n.withPrior q' := rfl

/-- Python `Node.convert_visits_to_prior_in_branch` (mcts.py lines
99-112): reset this node's count; with `total_count` the sum of
`child.count + 1` over the children, give each child the prior
`regularization*(child.count+1)/total_count + regularization/len(children)`
(both terms use `regularization` — the source text), then recurse into
the child; the recursive call passes NO argument, so every level below
the first uses the DEFAULT `regularization = 0.5`.  The source assigns
the child's prior before recursing; the recursion never reads or writes
its own node's prior, so assigning the prior to the recursion's result is
the same function. -/
def Node.convert_visits_to_prior_in_branch : ℚ → Node → Node
  | regularization, .mk p _ v ch =>
    Node.mk p 0 v (ch.attach.map (fun x =>
      (x.1.1, (Node.convert_visits_to_prior_in_branch (1/2) x.1.2).withPrior
        (regularization * ((x.1.2.count : ℚ) + 1) /
            ((ch.map (fun y => (y.2.count : ℚ) + 1)).sum) +
          regularization / (ch.length : ℚ)))))
termination_by _ n => sizeOf n
decreasing_by
  have h1 := List.sizeOf_lt_of_mem x.2
  obtain ⟨⟨a, b⟩, hx⟩ := x
  simp at h1 ⊢
  omega

/-- Unfolding of the prior conversion with the `attach` plumbing removed. -/
theorem convert_mk (reg p : ℚ) (c : ℕ) (v : ℚ) (ch : List (ℕ × Node)) :
    Node.convert_visits_to_prior_in_branch reg (Node.mk p c v ch) =
      Node.mk p 0 v (ch.map (fun x =>
        (x.1, (Node.convert_visits_to_prior_in_branch (1/2) x.2).withPrior
          (reg * ((x.2.count : ℚ) + 1) /
              ((ch.map (fun y => (y.2.count : ℚ) + 1)).sum) +
            reg / (ch.length : ℚ))))) := by
  rw [Node.convert_visits_to_prior_in_branch]
  rw [List.attach_map_coe _ (fun y : ℕ × Node =>
    (y.1, (Node.convert_visits_to_prior_in_branch (1/2) y.2).withPrior
      (reg * ((y.2.count : ℚ) + 1) /
          ((ch.map (fun y => (y.2.count : ℚ) + 1)).sum) +
        reg / (ch.length : ℚ))))]

/-- A Boolean check that every visit count in a subtree is zero. -/
def Node.countsZero : Node → Bool
  | .mk _ c _ ch =>
    (c == 0) && ((ch.attach.map (fun x => Node.countsZero x.1.2)).all (fun b => b))
termination_by n => sizeOf n
decreasing_by
  have h1 := List.sizeOf_lt_of_mem x.2
  obtain ⟨⟨a, b⟩, hx⟩ := x
  simp at h1 ⊢
  omega

theorem countsZero_mk (p : ℚ) (c : ℕ) (v : ℚ) (ch : List (ℕ × Node)) :
    Node.countsZero (Node.mk p c v ch) =
      ((c == 0) && (ch.map (fun x => Node.countsZero x.2)).all (fun b => b)) := by
  rw [Node.countsZero]
  rw [List.attach_map_coe _ (fun y : ℕ × Node => Node.countsZero y.2)]

theorem countsZero_withPrior (n : Node) (q : ℚ) :
    Node.countsZero (n.withPrior q) = Node.countsZero n := by
  obtain ⟨p, c, v, ch⟩ := n
  rw [Node.withPrior]
  simp only [Node.count_mk, Node.value_mk, Node.children_mk]
  rw [countsZero_mk, countsZero_mk]

/-- Structural induction over the nested `Node` tree. -/
theorem Node.ind (P : Node → Prop)
    (h : ∀ p c v ch, (∀ x ∈ ch, P x.2) → P (Node.mk p c v ch)) : ∀ n, P n
  | .mk p c v ch => h p c v ch (fun x hx => Node.ind P h x.2)
termination_by n => sizeOf n
decreasing_by
  have h1 := List.sizeOf_lt_of_mem hx
  obtain ⟨a, b⟩ := x
  simp at h1 ⊢
  omega

/-- After a prior conversion with any regularization, every count in the
subtree is zero. -/
theorem convert_countsZero :
    ∀ n : Node, ∀ reg : ℚ,
      Node.countsZero (Node.convert_visits_to_prior_in_branch reg n) = true := by
  refine Node.ind (fun n => ∀ reg,
    Node.countsZero (Node.convert_visits_to_prior_in_branch reg n) = true) ?_
  intro p c v ch ih reg
  rw [convert_mk, countsZero_mk]
  simp only [List.map_map, beq_self_eq_true, Bool.true_and, List.all_eq_true,
    List.mem_map, Function.comp]
  rintro b ⟨x, hx, rfl⟩
  rw [countsZero_withPrior]
  exact ih x hx (1/2)

/- ------------------------------------------------------------------ -/
/- Claim C5                                                           -/
/- ------------------------------------------------------------------ -/

/-- Concrete node for C5: two children with visit counts 0 and 1. -/
def t5 : Node := Node.mk 1 0 0 [(0, Node.mk 1 0 0 []), (1, Node.mk 1 1 0 [])]

/-- C5: evaluation of the code at the failing input.  With regularization
1 on a node whose two children have visit counts 0 and 1, the children's
priors become 5/6 and 7/6 — not a uniform distribution (they are not even
equal, and they sum to 2).  The code contradicts its own docstring ("when
1, the prior is a uniform distribution"): its formula uses
`regularization` as coefficient of both terms, where the documented
behaviour (uniform at 1, Boltzmann at 0) requires `1 - regularization` on
the visit-count term. -/
theorem convert_reg_one_not_uniform :
    ((Node.convert_visits_to_prior_in_branch 1 t5).children.map
      (fun x => x.2.prior)) = [5/6, 7/6] ∧ ((5 : ℚ)/6 ≠ 7/6) := by
  constructor
  · rw [t5, convert_mk]
    simp only [Node.children_mk, List.map_map, List.map_cons, List.map_nil,
      Function.comp, Node.withPrior_prior, Node.count_mk, List.sum_cons,
      List.sum_nil, List.length_cons, List.length_nil]
    norm_num
  · norm_num

/- ------------------------------------------------------------------ -/
/- Claim C6                                                           -/
/- ------------------------------------------------------------------ -/

/-- Concrete chain root → child → grandchild for the C6 counterexample,
all counts 0. -/
def t6 : Node :=
  Node.mk 1 0 0 [(0, Node.mk 1 0 0 [(0, Node.mk 1 0 0 [])])]

/-- C6 counterexample: calling the conversion with regularization 1 on
`t6` gives the child (path [0]) the prior 2 = 1*(0+1)/1 + 1/1, using the
given regularization — but the grandchild (path [0,0]) gets the prior
1 = 0.5*(0+1)/1 + 0.5/1, computed with the DEFAULT regularization 0.5,
not the prior 2 that the claim ("using the given reg at every level")
requires. -/
theorem convert_deep_uses_default_counterexample :
    Node.statsAt (Node.convert_visits_to_prior_in_branch 1 t6) [0] =
      some (2, 0, 0) ∧
    Node.statsAt (Node.convert_visits_to_prior_in_branch 1 t6) [0, 0] =
      some (1, 0, 0) ∧
    (1 : ℚ) ≠ 1 * ((0 : ℚ) + 1) / 1 + 1 / 1 := by
  have hleaf : Node.convert_visits_to_prior_in_branch (1/2) (Node.mk 1 0 0 []) =
      Node.mk 1 0 0 [] := by
    rw [convert_mk]
    simp
  have hchild : Node.convert_visits_to_prior_in_branch (1/2)
      (Node.mk 1 0 0 [(0, Node.mk 1 0 0 [])]) =
      Node.mk 1 0 0 [(0, Node.mk 1 0 0 [])] := by
    rw [convert_mk]
    simp only [List.map_cons, List.map_nil, Node.count_mk, List.sum_cons,
      List.sum_nil, List.length_cons, List.length_nil, hleaf]
    norm_num [Node.withPrior]
  have hroot : Node.convert_visits_to_prior_in_branch 1 t6 =
      Node.mk 1 0 0 [(0, Node.mk 2 0 0 [(0, Node.mk 1 0 0 [])])] := by
    rw [t6, convert_mk]
    simp only [List.map_cons, List.map_nil, Node.count_mk, List.sum_cons,
      List.sum_nil, List.length_cons, List.length_nil, hchild]
    norm_num [Node.withPrior]
  refine ⟨?_, ?_, by norm_num⟩
  · rw [hroot]
    rfl
  · rw [hroot]
    rfl

/-- C6 amended: the conversion resets this node's count to 0, gives each
child the prior `reg*(count+1)/totalCount + reg/numChildren` computed
with the GIVEN regularization at the top level only, recurses into each
child with the DEFAULT regularization 1/2 (so every deeper level uses
1/2, and the top-level regularization influences nothing but the direct
children's priors), and resets every descendant's visit count to 0. -/
theorem convert_amended (reg₁ reg₂ p : ℚ) (c : ℕ) (v : ℚ)
    (ch : List (ℕ × Node)) :
    Node.convert_visits_to_prior_in_branch reg₁ (Node.mk p c v ch) =
      Node.mk p 0 v (ch.map (fun x =>
        (x.1, (Node.convert_visits_to_prior_in_branch (1/2) x.2).withPrior
          (reg₁ * ((x.2.count : ℚ) + 1) /
              ((ch.map (fun y => (y.2.count : ℚ) + 1)).sum) +
            reg₁ / (ch.length : ℚ))))) ∧
    Node.countsZero (Node.convert_visits_to_prior_in_branch reg₁
      (Node.mk p c v ch)) = true ∧
    ((Node.convert_visits_to_prior_in_branch reg₁ (Node.mk p c v ch)).children.map
        (fun x => (x.1, x.2.withPrior 0)) =
      (Node.convert_visits_to_prior_in_branch reg₂ (Node.mk p c v ch)).children.map
        (fun x => (x.1, x.2.withPrior 0))) := by
  refine ⟨convert_mk reg₁ p c v ch, convert_countsZero (Node.mk p c v ch) reg₁, ?_⟩
  rw [convert_mk, convert_mk]
  simp only [Node.children_mk, List.map_map]
  apply List.map_congr_left
  intro x _
  simp [Function.comp]

/- ------------------------------------------------------------------ -/
/- Robust ensemble agent (mcts.py, class RobustMCTSAgent)             -/
/- ------------------------------------------------------------------ -/

/-- One sub-agent of the ensemble, as `RobustMCTSAgent.plan` reads it:
the root of its MCTS tree after the sub-agent's own planning call, and
its `previous_action`.  (The sub-agents' independent planning runs are
abstracted: this models the aggregation and commitment step of
mcts.py lines 464-477, which only reads the resulting root trees.) -/
structure RAgent where
  root : Node
  previous_action : Option ℕ

/-- One step of the dict comprehension of mcts.py lines 470-472: keep an
accumulated action iff it is a child of this agent's root, folding the
child's value in with `min` (`np.inf` is the top element of `WithTop ℚ`). -/
def robustStep (acc : List (ℕ × WithTop ℚ)) (ag : RAgent) : List (ℕ × WithTop ℚ) :=
  acc.filterMap (fun kv =>
    (lookupA kv.1 ag.root.children).map
      (fun ch => (kv.1, min kv.2 (ch.value : WithTop ℚ))))

/-- `min_action_values` after the loop of mcts.py lines 468-472, starting
from all of the environment's actions at `np.inf`. -/
def robustAggregate (actions : List ℕ) (agents : List RAgent) :
    List (ℕ × WithTop ℚ) :=
  agents.foldl robustStep (actions.map (fun k => (k, (⊤ : WithTop ℚ))))

/-- Python `RobustMCTSAgent.plan` (mcts.py lines 464-477), its aggregation
and commitment part: pick the action with maximal aggregated minimum value
(`max` over the dict keys, first-maximum tie-break; none on an empty dict,
where Python's `max` raises), then record it as every sub-agent's
`previous_action`. -/
def RobustMCTSAgent.plan (actions : List ℕ) (agents : List RAgent) :
    Option (List ℕ × List RAgent) :=
  match pymax (fun kv : ℕ × WithTop ℚ => kv.2) (robustAggregate actions agents) with
  | none => none
  | some kv =>
    some ([kv.1], agents.map (fun ag => RAgent.mk ag.root (some kv.1)))

/-- The value a sub-agent's root assigns to an action (top if absent). -/
def childValue (k : ℕ) (ag : RAgent) : WithTop ℚ :=
  match lookupA k ag.root.children with
  | some ch => (ch.value : WithTop ℚ)
  | none => ⊤

/-- The minimum over the ensemble of the root-child values of an action. -/
def minVal (k : ℕ) (agents : List RAgent) : WithTop ℚ :=
  agents.foldl (fun acc ag => min acc (childValue k ag)) ⊤

theorem robustStep_mem (acc : List (ℕ × WithTop ℚ)) (ag : RAgent)
    (k : ℕ) (v : WithTop ℚ) :
    (k, v) ∈ robustStep acc ag ↔
      ∃ v₀, (k, v₀) ∈ acc ∧ hasKey k ag.root.children = true ∧
        v = min v₀ (childValue k ag) := by
  rw [robustStep, List.mem_filterMap]
  constructor
  · rintro ⟨kv, hkv, hmap⟩
    rw [Option.map_eq_some'] at hmap
    obtain ⟨ch, hch, heq⟩ := hmap
    have hk : kv.1 = k := by
      have := congrArg Prod.fst heq
      simpa using this
    have hv : v = min kv.2 (ch.value : WithTop ℚ) := by
      have := congrArg Prod.snd heq
      simp at this
      rw [← this]
    refine ⟨kv.2, ?_, ?_, ?_⟩
    · rw [← hk]
      exact hkv
    · rw [hasKey, ← hk, hch]
      rfl
    · rw [hv, childValue, ← hk, hch]
  · rintro ⟨v₀, hmem, hkey, hv⟩
    rw [hasKey] at hkey
    cases hch : lookupA k ag.root.children with
    | none => rw [hch] at hkey; simp at hkey
    | some ch =>
      refine ⟨(k, v₀), hmem, ?_⟩
      rw [hch]
      simp only [Option.map_some']
      rw [hv, childValue, hch]

/-- Membership in the aggregated dict after folding any agent list over
any accumulator. -/
theorem robustAggregate_fold_mem (agents : List RAgent) :
    ∀ (acc : List (ℕ × WithTop ℚ)) (k : ℕ) (v : WithTop ℚ),
      (k, v) ∈ agents.foldl robustStep acc ↔
        ∃ v₀, (k, v₀) ∈ acc ∧ (∀ ag ∈ agents, hasKey k ag.root.children = true) ∧
          v = agents.foldl (fun acc ag => min acc (childValue k ag)) v₀ := by
  induction agents with
  | nil =>
    intro acc k v
    simp only [List.foldl_nil]
    constructor
    · intro h
      exact ⟨v, h, by simp, rfl⟩
    · rintro ⟨v₀, hmem, _, rfl⟩
      exact hmem
  | cons ag agents ih =>
    intro acc k v
    rw [List.foldl_cons, ih]
    constructor
    · rintro ⟨v₀, hmem, hall, rfl⟩
      rw [robustStep_mem] at hmem
      obtain ⟨v₁, hmem₁, hkey₁, rfl⟩ := hmem
      refine ⟨v₁, hmem₁, ?_, by simp⟩
      intro b hb
      rcases List.mem_cons.mp hb with hb | hb
      · rw [hb]; exact hkey₁
      · exact hall b hb
    · rintro ⟨v₀, hmem, hall, rfl⟩
      refine ⟨min v₀ (childValue k ag), ?_, fun b hb => hall b (by simp [hb]), by simp⟩
      rw [robustStep_mem]
      exact ⟨v₀, hmem, hall ag (by simp), rfl⟩

/-- Membership in `robustAggregate`: exactly the actions of the
environment that have a child in every sub-agent's root, valued at the
ensemble minimum. -/
theorem robustAggregate_mem (actions : List ℕ) (agents : List RAgent)
    (k : ℕ) (v : WithTop ℚ) :
    (k, v) ∈ robustAggregate actions agents ↔
      k ∈ actions ∧ (∀ ag ∈ agents, hasKey k ag.root.children = true) ∧
        v = minVal k agents := by
  rw [robustAggregate, robustAggregate_fold_mem]
  constructor
  · rintro ⟨v₀, hmem, hall, rfl⟩
    rw [List.mem_map] at hmem
    obtain ⟨a, ha, heq⟩ := hmem
    have hak : a = k := by
      have := congrArg Prod.fst heq
      simpa using this
    have hv₀ : v₀ = (⊤ : WithTop ℚ) := by
      have := congrArg Prod.snd heq
      simpa using this.symm
    rw [hak] at ha
    exact ⟨ha, hall, by rw [hv₀]; rfl⟩
  · rintro ⟨hk, hall, rfl⟩
    exact ⟨⊤, List.mem_map.mpr ⟨k, hk, rfl⟩, hall, rfl⟩

theorem lookupA_mem (a : ℕ) (c : Node) :
    ∀ l : List (ℕ × Node), lookupA a l = some c → (a, c) ∈ l := by
  intro l
  induction l with
  | nil => intro h; simp [lookupA] at h
  | cons kv t ih =>
    intro h
    rw [lookupA_cons] at h
    by_cases hk : kv.1 = a
    · simp only [hk, if_true, Option.some.injEq] at h
      exact List.mem_cons.mpr (Or.inl (by rw [← hk, ← h]))
    · simp only [hk, if_false] at h
      exact List.mem_cons_of_mem _ (ih h)

theorem key_mem_actions (actions : List ℕ) (ag : RAgent)
    (hsubag : ∀ kv ∈ ag.root.children, kv.1 ∈ actions) (k : ℕ)
    (hkey : hasKey k ag.root.children = true) : k ∈ actions := by
  rw [hasKey] at hkey
  cases hch : lookupA k ag.root.children with
  | none => rw [hch] at hkey; simp at hkey
  | some ch => exact hsubag (k, ch) (lookupA_mem k ch _ hch)

theorem foldl_min_le {γ : Type} [LinearOrder γ] (g : RAgent → γ) :
    ∀ (agents : List RAgent) (acc : γ),
      (agents.foldl (fun a ag => min a (g ag)) acc ≤ acc) ∧
      (∀ ag ∈ agents, agents.foldl (fun a ag => min a (g ag)) acc ≤ g ag) := by
  intro agents
  induction agents with
  | nil => intro acc; simp
  | cons b agents ih =>
    intro acc
    rw [List.foldl_cons]
    obtain ⟨h1, h2⟩ := ih (min acc (g b))
    refine ⟨le_trans h1 (min_le_left _ _), ?_⟩
    intro ag hag
    rcases List.mem_cons.mp hag with hag | hag
    · rw [hag]
      exact le_trans h1 (min_le_right _ _)
    · exact h2 ag hag

theorem foldl_min_attained {γ : Type} [LinearOrder γ] (g : RAgent → γ) :
    ∀ (agents : List RAgent) (acc : γ),
      agents.foldl (fun a ag => min a (g ag)) acc = acc ∨
      ∃ ag ∈ agents, agents.foldl (fun a ag => min a (g ag)) acc = g ag := by
  intro agents
  induction agents with
  | nil => intro acc; exact Or.inl rfl
  | cons b agents ih =>
    intro acc
    rw [List.foldl_cons]
    rcases ih (min acc (g b)) with h | ⟨ag, hag, h⟩
    · rcases min_choice acc (g b) with hm | hm
      · exact Or.inl (h.trans hm)
      · exact Or.inr ⟨b, by simp, h.trans hm⟩
    · exact Or.inr ⟨ag, by simp [hag], h⟩

/- ------------------------------------------------------------------ -/
/- Claim C7                                                           -/
/- ------------------------------------------------------------------ -/

/-- C7: with a nonempty ensemble whose root children all come from the
environment's action set, and at least one action explored by every
sub-agent, `RobustMCTSAgent.plan` returns a single action which (i) has a
root child in every sub-agent's tree (the candidate set is exactly the
set of actions present in every root), (ii) is valued at the minimum of
its root-child values across the sub-agents (a lower bound attained by
some sub-agent), (iii) maximises this minimum over all candidates, and
(iv) is recorded as the `previous_action` of every sub-agent, whose trees
are otherwise untouched. -/
theorem robust_plan_maximin (actions : List ℕ) (agents : List RAgent)
    (hne : agents ≠ [])
    (hsub : ∀ ag ∈ agents, ∀ kv ∈ ag.root.children, kv.1 ∈ actions)
    (hcand : ∃ k, ∀ ag ∈ agents, hasKey k ag.root.children = true) :
    ∃ a agents', RobustMCTSAgent.plan actions agents = some ([a], agents') ∧
      (∀ ag ∈ agents, hasKey a ag.root.children = true) ∧
      (∀ k, ((∃ v, (k, v) ∈ robustAggregate actions agents) ↔
        (∀ ag ∈ agents, hasKey k ag.root.children = true))) ∧
      (∀ ag ∈ agents, minVal a agents ≤ childValue a ag) ∧
      (∃ ag ∈ agents, minVal a agents = childValue a ag) ∧
      (∀ k, (∀ ag ∈ agents, hasKey k ag.root.children = true) →
        minVal k agents ≤ minVal a agents) ∧
      (∀ ag' ∈ agents', ag'.previous_action = some a) ∧
      agents'.map RAgent.root = agents.map RAgent.root := by
  obtain ⟨k₀, hk₀⟩ := hcand
  obtain ⟨ag₀, hag₀⟩ := List.exists_mem_of_ne_nil agents hne
  have hk₀act : k₀ ∈ actions :=
    key_mem_actions actions ag₀ (hsub ag₀ hag₀) k₀ (hk₀ ag₀ hag₀)
  have hmem₀ : (k₀, minVal k₀ agents) ∈ robustAggregate actions agents :=
    (robustAggregate_mem actions agents k₀ (minVal k₀ agents)).mpr ⟨hk₀act, hk₀, rfl⟩
  have hagg_ne : robustAggregate actions agents ≠ [] := by
    intro hnil
    rw [hnil] at hmem₀
    simp at hmem₀
  obtain ⟨x, pre, post, hmax, hdec, hle, _⟩ :=
    pymax_spec (fun kv : ℕ × WithTop ℚ => kv.2) (robustAggregate actions agents)
      hagg_ne
  have hxmem : x ∈ robustAggregate actions agents := by
    rw [hdec]
    simp
  obtain ⟨hxact, hxall, hxval⟩ :=
    (robustAggregate_mem actions agents x.1 x.2).mp hxmem
  refine ⟨x.1, agents.map (fun ag => RAgent.mk ag.root (some x.1)), ?_, hxall, ?_,
    ?_, ?_, ?_, ?_, ?_⟩
  · rw [RobustMCTSAgent.plan, hmax]
  · intro k
    constructor
    · rintro ⟨v, hv⟩
      exact ((robustAggregate_mem actions agents k v).mp hv).2.1
    · intro hall
      have hkact : k ∈ actions :=
        key_mem_actions actions ag₀ (hsub ag₀ hag₀) k (hall ag₀ hag₀)
      exact ⟨minVal k agents,
        (robustAggregate_mem actions agents k (minVal k agents)).mpr
          ⟨hkact, hall, rfl⟩⟩
  · intro ag hag
    exact (foldl_min_le (childValue x.1) agents ⊤).2 ag hag
  · rcases foldl_min_attained (childValue x.1) agents ⊤ with h | h
    · exfalso
      have hv₀ := hxall ag₀ hag₀
      rw [hasKey] at hv₀
      cases hch : lookupA x.1 ag₀.root.children with
      | none => rw [hch] at hv₀; simp at hv₀
      | some ch =>
        have hle₀ : minVal x.1 agents ≤ (ch.value : WithTop ℚ) := by
          have := (foldl_min_le (childValue x.1) agents ⊤).2 ag₀ hag₀
          rwa [childValue, hch] at this
        have hmv : minVal x.1 agents = ⊤ := h
        rw [hmv] at hle₀
        exact absurd (top_le_iff.mp hle₀) (by simp)
    · exact h
  · intro k hkall
    have hkact : k ∈ actions :=
      key_mem_actions actions ag₀ (hsub ag₀ hag₀) k (hkall ag₀ hag₀)
    have hkm : (k, minVal k agents) ∈ robustAggregate actions agents :=
      (robustAggregate_mem actions agents k (minVal k agents)).mpr
        ⟨hkact, hkall, rfl⟩
    have := hle (k, minVal k agents) hkm
    rw [hxval] at this
    exact this
  · intro ag' hag'
    rw [List.mem_map] at hag'
    obtain ⟨ag, _, heq⟩ := hag'
    rw [← heq]
  · rw [List.map_map]
    rfl

/-- First concrete sub-agent for the C7 witness. -/
def agW : RAgent :=
  RAgent.mk (Node.mk 1 0 0 [(0, Node.mk 1 1 3 []), (1, Node.mk 1 1 5 [])]) none

/-- Second concrete sub-agent for the C7 witness. -/
def agW2 : RAgent :=
  RAgent.mk (Node.mk 1 0 0 [(0, Node.mk 1 1 4 []), (1, Node.mk 1 1 2 [])]) none

/-- Witness for C7: the robust plan succeeds on a concrete two-model,
two-action ensemble. -/
theorem robust_plan_maximin_witness :
    (RobustMCTSAgent.plan [0, 1] [agW, agW2]).isSome = true := by
  obtain ⟨a, ags', h, _⟩ := robust_plan_maximin [0, 1] [agW, agW2]
    (by simp)
    (by
      intro ag hag kv hkv
      simp only [List.mem_cons, List.not_mem_nil, or_false] at hag
      rcases hag with rfl | rfl
      · simp only [agW, Node.children_mk, List.mem_cons, List.not_mem_nil,
          or_false] at hkv
        rcases hkv with rfl | rfl
        · simp
        · simp
      · simp only [agW2, Node.children_mk, List.mem_cons, List.not_mem_nil,
          or_false] at hkv
        rcases hkv with rfl | rfl
        · simp
        · simp)
    ⟨0, by
      intro ag hag
      simp only [List.mem_cons, List.not_mem_nil, or_false] at hag
      rcases hag with rfl | rfl
      · rfl
      · rfl⟩
  rw [h]
  rfl

/- ------------------------------------------------------------------ -/
/- JointEnv (robust.py, class JointEnv)                               -/
/- ------------------------------------------------------------------ -/

/-- One candidate environment as `JointEnv.get_available_actions` reads
it: the result of `get_available_actions()` when the environment exposes
one (none otherwise), and the size `n` of its action space for the
`range(n)` fallback. -/
structure EnvModel where
  avail : Option (List ℕ)
  nActions : ℕ

/-- The per-model action list of robust.py lines 45-47:
`s.get_available_actions()` if the hook exists, else
`range(s.action_space.n)`. -/
def envActionsList (e : EnvModel) : List ℕ :=
  match e.avail with
  | some l => l
  | none => List.range e.nActions

/-- Python `JointEnv.get_available_actions` (robust.py lines 44-47):
`list(set().union(*...))` — the set union over all models (the result's
list order is unspecified, so the embedding returns the set). -/
def get_available_actions (envs : List EnvModel) : Finset ℕ :=
  envs.foldl (fun acc e => acc ∪ (envActionsList e).toFinset) ∅

theorem get_available_actions_fold (envs : List EnvModel) :
    ∀ (acc : Finset ℕ) (a : ℕ),
      a ∈ envs.foldl (fun acc e => acc ∪ (envActionsList e).toFinset) acc ↔
        a ∈ acc ∨ ∃ e ∈ envs, a ∈ envActionsList e := by
  induction envs with
  | nil =>
    intro acc a
    simp
  | cons e envs ih =>
    intro acc a
    rw [List.foldl_cons, ih]
    constructor
    · rintro (h | h)
      · rcases Finset.mem_union.mp h with h | h
        · exact Or.inl h
        · exact Or.inr ⟨e, by simp, List.mem_toFinset.mp h⟩
      · obtain ⟨e', he', ha⟩ := h
        exact Or.inr ⟨e', by simp [he'], ha⟩
    · rintro (h | ⟨e', he', ha⟩)
      · exact Or.inl (Finset.mem_union.mpr (Or.inl h))
      · rcases List.mem_cons.mp he' with he' | he'
        · refine Or.inl (Finset.mem_union.mpr (Or.inr ?_))
          rw [← he']
          exact List.mem_toFinset.mpr ha
        · exact Or.inr ⟨e', he', ha⟩

/- ------------------------------------------------------------------ -/
/- Claim C10                                                          -/
/- ------------------------------------------------------------------ -/

/-- C10: `JointEnv.get_available_actions` is the union — not the
intersection — of the per-model action lists, each model falling back to
its full action space `range(n)` when it exposes no availability query;
consequently (last conjunct, a concrete two-model instance) an action
unavailable in one model is still offered. -/
theorem joint_env_available_actions_union :
    (∀ (envs : List EnvModel) (a : ℕ),
      a ∈ get_available_actions envs ↔ ∃ e ∈ envs, a ∈ envActionsList e) ∧
    (∀ (l : List ℕ) (m : ℕ), envActionsList (EnvModel.mk (some l) m) = l) ∧
    (∀ m : ℕ, envActionsList (EnvModel.mk none m) = List.range m) ∧
    (1 ∈ get_available_actions
        [EnvModel.mk (some [0]) 5, EnvModel.mk (some [1]) 5] ∧
      1 ∉ envActionsList (EnvModel.mk (some [0]) 5)) := by
  refine ⟨?_, fun l m => rfl, fun m => rfl, ?_, ?_⟩
  · intro envs a
    rw [get_available_actions, get_available_actions_fold]
    simp
  · decide
  · decide

/- ------------------------------------------------------------------ -/
/- MCTS engine (mcts.py, classes MCTS and MCTSAgent)                  -/
/- ------------------------------------------------------------------ -/

/-- The data a `MCTS` instance closes over, for a deterministic
environment with state type `σ`: `stepf` is `state.step` (observation and
info dropped — the engine never reads them), the two policies return an
(actions, probabilities) pair, and `pick` abstracts the rollout's RNG
draw `np_random.choice` as an index into the returned action list. -/
structure MCTSCfg (σ : Type) where
  stepf : σ → ℕ → σ × ℚ × Bool
  prior_policy : σ → List ℕ × List ℚ
  rollout_policy : σ → List ℕ × List ℚ
  pick : σ → ℕ
  temperature : ℚ
  iterations : ℕ
  max_depth : ℕ

/-- Python `MCTS.evaluate` (mcts.py lines 181-197): roll out for at most
`limit` steps, sampling from the rollout policy, accumulating rewards,
stopping at a terminal transition.  The RNG sample is the `pick`-selected
element of the returned action list. -/
def MCTS.evaluate {σ : Type} (cfg : MCTSCfg σ) : σ → ℚ → ℕ → ℚ
  | _, total, 0 => total
  | s, total, limit + 1 =>
    let ap := cfg.rollout_policy s
    let a := ap.1.getD (cfg.pick s) 0
    let srt := cfg.stepf s a
    if srt.2.2 then total + srt.2.1
    else MCTS.evaluate cfg srt.1 (total + srt.2.1) limit

/-- Steps 2-4 of Python `MCTS.run` (mcts.py lines 173-179) at the node
where the selection loop stopped: expand if the node is a leaf and (the
trajectory is not terminal or the node is the root), evaluate by rollout
if not terminal with the remaining depth as limit, then apply this node's
own `update` of the backpropagation (the ancestors' updates happen on the
way out of the selection recursion). -/
def MCTS.runLeaf {σ : Type} (cfg : MCTSCfg σ) (s : σ) (terminal : Bool)
    (isRoot : Bool) (total : ℚ) (depth : ℕ) (node : Node) : Option (Node × ℚ) :=
  match (if node.children.isEmpty && (!terminal || isRoot) then
      node.expand (cfg.prior_policy s) else some node) with
  | none => none
  | some node' =>
    let ft := if terminal then total else MCTS.evaluate cfg s total depth
    some (node'.update ft, ft)

/-- Python `MCTS.run` (mcts.py lines 156-179): the selection loop (while
depth remains, the node has children and the trajectory is not terminal:
select an action, step the state, accumulate the reward, descend), then
the leaf phase, with `update_branch` distributed over the recursion — on
the way out each node on the selection path replaces its stepped child by
the recursion's result and applies `update` with the trajectory's final
total reward, exactly the set of updates `update_branch` performs
bottom-up.  `isRoot` tracks `node == self.root` (no descent yet);
unreachable branches (an action selected from or looked up in an empty
dict) are none. -/
def MCTS.runAux {σ : Type} (cfg : MCTSCfg σ) :
    ℕ → Bool → σ → Bool → ℚ → Node → Option (Node × ℚ)
  | 0, isRoot, s, terminal, total, node =>
    MCTS.runLeaf cfg s terminal isRoot total 0 node
  | depth + 1, isRoot, s, terminal, total, node =>
    if node.children.isEmpty || terminal then
      MCTS.runLeaf cfg s terminal isRoot total (depth + 1) node
    else
      match node.select_action cfg.temperature with
      | none => none
      | some a =>
        let srt := cfg.stepf s a
        match lookupA a node.children with
        | none => none
        | some child =>
          match MCTS.runAux cfg depth false srt.1 srt.2.2 (total + srt.2.1) child with
          | none => none
          | some (child', ft) =>
            some ((Node.mk node.prior node.count node.value
              (mapChildFirst a (fun _ => child') node.children)).update ft, ft)

/-- One full simulation from the root (depth budget `max_depth`, initial
total reward 0, not terminal), returning the updated tree. -/
def MCTS.run {σ : Type} (cfg : MCTSCfg σ) (s : σ) (root : Node) : Option Node :=
  (MCTS.runAux cfg cfg.max_depth true s false 0 root).map Prod.fst

/-- The iteration loop of Python `MCTS.plan` (mcts.py lines 199-221):
each iteration runs one simulation against a fresh copy of the same
planning state. -/
def MCTS.planLoop {σ : Type} (cfg : MCTSCfg σ) (s : σ) : ℕ → Node → Option Node
  | 0, root => some root
  | n + 1, root =>
    match MCTS.run cfg s root with
    | none => none
    | some root' => MCTS.planLoop cfg s n root'

theorem sizeOf_lookupA_lt (n : Node) (a : ℕ) (c : Node)
    (h : lookupA a n.children = some c) : sizeOf c < sizeOf n := by
  obtain ⟨p, cnt, v, ch⟩ := n
  have hm : (a, c) ∈ ch := lookupA_mem a c ch (by simpa using h)
  have h1 := List.sizeOf_lt_of_mem hm
  simp at h1 ⊢
  omega

/-- Python `MCTS.get_plan` (mcts.py lines 239-252): walk from the root,
choosing the temperature-0 action of each node, until a node with no
children; collect the chosen actions.  (`select_action` returns none
exactly on a childless node, ending the walk; the inner none branch — a
selected action missing from the dict — is unreachable.) -/
def MCTS.get_plan (n : Node) : List ℕ :=
  match n.select_action 0 with
  | none => []
  | some a =>
    match h2 : lookupA a n.children with
    | none => []
    | some child => a :: MCTS.get_plan child
termination_by sizeOf n
decreasing_by exact sizeOf_lookupA_lt n a child h2

/-- Python `MCTS.step_by_subtree` (mcts.py lines 268-279), also covering
`MCTS.step` and the `previous_action = None` first call: promote the
chosen action's child to root (its parent link is gone with the tree
structure), or start a fresh root `Node(None)` (prior 1, count 0, value
0, no children) when the action has no child. -/
def MCTS.step_by_subtree (action : Option ℕ) (root : Node) : Node :=
  match action with
  | none => Node.mk 1 0 0 []
  | some a =>
    match lookupA a root.children with
    | some child => child
    | none => Node.mk 1 0 0 []

/-- Python `MCTS.plan` (mcts.py lines 199-221): run the iteration budget
of simulations, then extract the plan; the final tree is kept alongside. -/
def MCTS.plan {σ : Type} (cfg : MCTSCfg σ) (s : σ) (root : Node) :
    Option (List ℕ × Node) :=
  match MCTS.planLoop cfg s cfg.iterations root with
  | none => none
  | some root' => some (MCTS.get_plan root', root')

/-- The mutable state of a `MCTSAgent`: its tree root and the previously
executed action. -/
structure AgentState where
  root : Node
  previous_action : Option ℕ

/-- Python `MCTSAgent.plan` (mcts.py lines 321-336): advance the tree by
the previous action, plan, then record `previous_action = actions[0]` —
an IndexError (none) when the plan is empty. -/
def MCTSAgent.plan {σ : Type} (cfg : MCTSCfg σ) (ag : AgentState) (s : σ) :
    Option (List ℕ × AgentState) :=
  match MCTS.plan cfg s (MCTS.step_by_subtree ag.previous_action ag.root) with
  | none => none
  | some (actions, root') =>
    match actions with
    | [] => none
    | a :: rest => some (a :: rest, AgentState.mk root' (some a))

/-- Python `MCTSAgent.act` (mcts.py lines 435-436): the first action of
the plan. -/
def MCTSAgent.act {σ : Type} (cfg : MCTSCfg σ) (ag : AgentState) (s : σ) :
    Option ℕ :=
  match MCTSAgent.plan cfg ag s with
  | none => none
  | some (actions, _) => actions.head?

theorem hasKey_of_mem (a : ℕ) (c : Node) :
    ∀ l : List (ℕ × Node), (a, c) ∈ l → hasKey a l = true := by
  intro l
  induction l with
  | nil => intro h; simp at h
  | cons kv t ih =>
    intro h
    rcases List.mem_cons.mp h with h | h
    · rw [hasKey, lookupA_cons, ← h]
      simp
    · by_cases hk : kv.1 = a
      · simp [hasKey, lookupA_cons, hk]
      · simp only [hasKey, lookupA_cons, hk, if_false]
        exact ih h

/-- On a node with children, `select_action` returns an action that is a
key of the children dict (at any temperature). -/
theorem select_action_some (n : Node) (temp : ℚ) (h : n.children ≠ []) :
    ∃ a c, n.select_action temp = some a ∧ lookupA a n.children = some c := by
  have hne : n.children.isEmpty = false := by
    simp [List.isEmpty_iff, h]
  by_cases ht : temp = 0
  · obtain ⟨x, pre, post, hmax, hdec, _, _⟩ :=
      pymax_spec (fun kv : ℕ × Node => kv.2.count) n.children h
    have hxmem : x ∈ n.children := by rw [hdec]; simp
    have hkey : hasKey x.1 n.children = true :=
      hasKey_of_mem x.1 x.2 n.children (by simpa using hxmem)
    rw [hasKey] at hkey
    obtain ⟨c, hc⟩ := Option.isSome_iff_exists.mp hkey
    refine ⟨x.1, c, ?_, hc⟩
    rw [ht]
    simp [Node.select_action, hne, hmax]
  · obtain ⟨x, pre, post, hmax, hdec, _, _⟩ :=
      pymax_spec (fun kv : ℕ × Node => kv.2.selection_strategy temp) n.children h
    have hxmem : x ∈ n.children := by rw [hdec]; simp
    have hkey : hasKey x.1 n.children = true :=
      hasKey_of_mem x.1 x.2 n.children (by simpa using hxmem)
    rw [hasKey] at hkey
    obtain ⟨c, hc⟩ := Option.isSome_iff_exists.mp hkey
    refine ⟨x.1, c, ?_, hc⟩
    simp [Node.select_action, hne, ht, hmax]

/-- The expansion loop succeeds whenever the probability list is at least
as long as the action list. -/
theorem expandGo_total :
    ∀ (acts : List ℕ) (ch : List (ℕ × Node)) (ps : List ℚ),
      acts.length ≤ ps.length → ∃ ch', expandGo ch acts ps = some ch' := by
  intro acts
  induction acts with
  | nil => intro ch ps _; exact ⟨ch, rfl⟩
  | cons a acts ih =>
    intro ch ps hlen
    rcases ps with _ | ⟨p, ps⟩
    · simp at hlen
    · have hlen' : acts.length ≤ ps.length := by simpa using hlen
      cases hk : hasKey a ch
      · obtain ⟨ch', hgo⟩ := ih (ch ++ [(a, Node.mk p 0 0 [])]) ps hlen'
        exact ⟨ch', by
          simp only [expandGo, hk, Bool.false_eq_true, if_false]
          exact hgo⟩
      · obtain ⟨ch', hgo⟩ := ih ch ps hlen'
        exact ⟨ch', by
          simp only [expandGo, hk, if_true]
          exact hgo⟩

/-- A well-formed-length expansion succeeds, preserves nonemptiness of
the children, and produces children whenever the action list is
nonempty. -/
theorem expand_ok (n : Node) (dist : List ℕ × List ℚ)
    (hlen : dist.1.length ≤ dist.2.length) :
    ∃ n', n.expand dist = some n' ∧
      (n.children ≠ [] → n'.children ≠ []) ∧
      (dist.1 ≠ [] → n'.children ≠ []) := by
  obtain ⟨ch', hgo⟩ := expandGo_total dist.1 n.children dist.2 hlen
  refine ⟨Node.mk n.prior n.count n.value ch', ?_, ?_, ?_⟩
  · rw [Node.expand, hgo]
    rfl
  · intro hne
    obtain ⟨ext, hext⟩ := expandGo_append dist.1 n.children dist.2 ch' hgo
    simp only [Node.children_mk]
    rw [hext]
    intro hnil
    rcases List.append_eq_nil.mp hnil with ⟨h1, _⟩
    exact hne h1
  · intro hne
    obtain ⟨a, ha⟩ := List.exists_mem_of_ne_nil dist.1 hne
    have hkey := expandGo_allKeys dist.1 n.children dist.2 ch' hgo a ha
    simp only [Node.children_mk]
    intro hnil
    rw [hnil] at hkey
    simp [hasKey, lookupA] at hkey

theorem mapChildFirst_ne_nil (a : ℕ) (f : Node → Node)
    (l : List (ℕ × Node)) (h : l ≠ []) : mapChildFirst a f l ≠ [] := by
  rcases l with _ | ⟨kv, t⟩
  · exact absurd rfl h
  · rw [mapChildFirst]
    by_cases hk : kv.1 = a
    · simp [hk]
    · simp [hk]

/-- The leaf phase always succeeds (under a well-formed prior policy) and
produces children for a non-terminal root leaf; children never vanish. -/
theorem runLeaf_ok {σ : Type} (cfg : MCTSCfg σ)
    (hplen : ∀ st : σ, (cfg.prior_policy st).1.length ≤ (cfg.prior_policy st).2.length)
    (hpne : ∀ st : σ, (cfg.prior_policy st).1 ≠ [])
    (s : σ) (terminal isRoot : Bool) (total : ℚ) (depth : ℕ) (node : Node) :
    ∃ r ft, MCTS.runLeaf cfg s terminal isRoot total depth node = some (r, ft) ∧
      (node.children ≠ [] → r.children ≠ []) ∧
      (isRoot = true → terminal = false → r.children ≠ []) := by
  rw [MCTS.runLeaf]
  cases hcond : (node.children.isEmpty && (!terminal || isRoot)) with
  | false =>
    simp only [hcond, Bool.false_eq_true, if_false]
    refine ⟨_, _, rfl, ?_, ?_⟩
    · intro h
      simpa using h
    · intro hroot hterm
      rw [hroot, hterm] at hcond
      simp only [Bool.not_false, Bool.true_or, Bool.and_true] at hcond
      intro hnil
      rw [Node.update_children] at hnil
      rw [hnil] at hcond
      simp at hcond
  | true =>
    simp only [hcond, if_true]
    obtain ⟨hempty, _⟩ := Bool.and_eq_true_iff.mp hcond
    have hnil : node.children = [] := by
      simpa [List.isEmpty_iff] using hempty
    obtain ⟨n', hexp, _, hne'⟩ := expand_ok node (cfg.prior_policy s) (hplen s)
    rw [hexp]
    refine ⟨_, _, rfl, ?_, ?_⟩
    · intro h
      exact absurd hnil h
    · intro _ _
      have h := hne' (hpne s)
      simpa using h

/-- One simulation from any node always succeeds, never destroys the
node's children, and leaves the top node with children whenever the call
is the root call of a non-terminal trajectory. -/
theorem runAux_ok {σ : Type} (cfg : MCTSCfg σ)
    (hplen : ∀ st : σ, (cfg.prior_policy st).1.length ≤ (cfg.prior_policy st).2.length)
    (hpne : ∀ st : σ, (cfg.prior_policy st).1 ≠ []) :
    ∀ (depth : ℕ) (isRoot : Bool) (s : σ) (terminal : Bool) (total : ℚ) (node : Node),
      ∃ r ft, MCTS.runAux cfg depth isRoot s terminal total node = some (r, ft) ∧
        (node.children ≠ [] → r.children ≠ []) ∧
        (isRoot = true → terminal = false → r.children ≠ []) := by
  intro depth
  induction depth with
  | zero =>
    intro isRoot s terminal total node
    obtain ⟨r, ft, hleaf, h1, h2⟩ :=
      runLeaf_ok cfg hplen hpne s terminal isRoot total 0 node
    exact ⟨r, ft, hleaf, h1, h2⟩
  | succ depth ih =>
    intro isRoot s terminal total node
    cases hcond : (node.children.isEmpty || terminal) with
    | true =>
      obtain ⟨r, ft, hleaf, h1, h2⟩ :=
        runLeaf_ok cfg hplen hpne s terminal isRoot total (depth + 1) node
      refine ⟨r, ft, ?_, h1, h2⟩
      simp only [MCTS.runAux, hcond, if_true]
      exact hleaf
    | false =>
      have hchne : node.children ≠ [] := by
        intro hnil
        rw [hnil] at hcond
        simp at hcond
      obtain ⟨a, child, hsel, hlk⟩ := select_action_some node cfg.temperature hchne
      obtain ⟨child', ft, hrec, _, _⟩ :=
        ih false (cfg.stepf s a).1 (cfg.stepf s a).2.2
          (total + (cfg.stepf s a).2.1) child
      refine ⟨(Node.mk node.prior node.count node.value
          (mapChildFirst a (fun _ => child') node.children)).update ft, ft,
        ?_, ?_, ?_⟩
      · simp only [MCTS.runAux, hcond, Bool.false_eq_true, if_false, hsel, hlk, hrec]
      · intro _
        simp only [Node.update_children, Node.children_mk]
        exact mapChildFirst_ne_nil a _ _ hchne
      · intro _ _
        simp only [Node.update_children, Node.children_mk]
        exact mapChildFirst_ne_nil a _ _ hchne

/-- A root-level simulation always succeeds and always leaves the root
with children (expanding it if it had none). -/
theorem run_ok {σ : Type} (cfg : MCTSCfg σ)
    (hplen : ∀ st : σ, (cfg.prior_policy st).1.length ≤ (cfg.prior_policy st).2.length)
    (hpne : ∀ st : σ, (cfg.prior_policy st).1 ≠ [])
    (s : σ) (node : Node) :
    ∃ r, MCTS.run cfg s node = some r ∧ r.children ≠ [] := by
  obtain ⟨r, ft, h, _, h2⟩ :=
    runAux_ok cfg hplen hpne cfg.max_depth true s false 0 node
  refine ⟨r, ?_, h2 rfl rfl⟩
  rw [MCTS.run, h]
  rfl

/-- The iteration loop always succeeds; after at least one iteration the
root has children. -/
theorem planLoop_ok {σ : Type} (cfg : MCTSCfg σ)
    (hplen : ∀ st : σ, (cfg.prior_policy st).1.length ≤ (cfg.prior_policy st).2.length)
    (hpne : ∀ st : σ, (cfg.prior_policy st).1 ≠ []) (s : σ) :
    ∀ (iter : ℕ) (node : Node),
      ∃ r, MCTS.planLoop cfg s iter node = some r ∧
        (node.children ≠ [] → r.children ≠ []) ∧
        (1 ≤ iter → r.children ≠ []) := by
  intro iter
  induction iter with
  | zero =>
    intro node
    exact ⟨node, rfl, fun h => h, fun h => absurd h (by norm_num)⟩
  | succ iter ih =>
    intro node
    obtain ⟨r₁, hrun, hr₁⟩ := run_ok cfg hplen hpne s node
    obtain ⟨r, hloop, h1, _⟩ := ih r₁
    refine ⟨r, ?_, fun _ => h1 hr₁, fun _ => h1 hr₁⟩
    simp only [MCTS.planLoop, hrun]
    exact hloop

theorem get_plan_eq_nil (n : Node) (h : n.select_action 0 = none) :
    MCTS.get_plan n = [] := by
  rw [MCTS.get_plan, h]

theorem get_plan_eq_cons (n : Node) (a : ℕ) (child : Node)
    (hsel : n.select_action 0 = some a)
    (hlk : lookupA a n.children = some child) :
    MCTS.get_plan n = a :: MCTS.get_plan child := by
  rw [MCTS.get_plan, hsel]
  split
  · next heq => simp at heq
  · next c heq =>
    have hca : c = a := by
      injection heq with h
      exact h.symm
    subst hca
    split
    · next heq2 =>
      rw [hlk] at heq2
      cases heq2
    · next c2 heq2 =>
      rw [hlk] at heq2
      injection heq2 with h2
      rw [h2]

/-- The extracted plan is nonempty on a root with children. -/
theorem get_plan_cons (n : Node) (h : n.children ≠ []) :
    ∃ a rest, MCTS.get_plan n = a :: rest := by
  obtain ⟨a, child, hsel, hlk⟩ := select_action_some n 0 h
  exact ⟨a, MCTS.get_plan child, get_plan_eq_cons n a child hsel hlk⟩

/- ------------------------------------------------------------------ -/
/- Claim C8                                                           -/
/- ------------------------------------------------------------------ -/

/-- Concrete configuration with iteration count 0 for the C8
counterexample: a one-action never-terminating environment over `Unit`. -/
def cfg0 : MCTSCfg Unit :=
  MCTSCfg.mk (fun _ _ => ((), 0, false)) (fun _ => ([0], [1]))
    (fun _ => ([0], [1])) (fun _ => 0) 10 0 7

/-- A fresh agent state: a fresh root, no previous action. -/
def ag0 : AgentState := AgentState.mk (Node.mk 1 0 0 []) none

/-- C8 counterexample: with an iteration count of zero the root is never
expanded — the tree `planLoop` returns is still the fresh childless root
— the extracted plan is the empty sequence, and the agent-level `plan`
and `act` fail (Python: IndexError at `actions[0]`, embedded as none),
refuting "the root is always expanded first" and "the agent-level plan
and act calls succeed for every iteration count". -/
theorem plan_zero_iterations_counterexample :
    MCTS.planLoop cfg0 () cfg0.iterations
        (MCTS.step_by_subtree ag0.previous_action ag0.root) =
      some (Node.mk 1 0 0 []) ∧
    (Node.mk 1 0 0 []).children = [] ∧
    MCTS.get_plan (Node.mk 1 0 0 []) = [] ∧
    MCTSAgent.plan cfg0 ag0 () = none ∧
    MCTSAgent.act cfg0 ag0 () = none := by
  have hgp : MCTS.get_plan (Node.mk 1 0 0 []) = [] :=
    get_plan_eq_nil (Node.mk 1 0 0 []) rfl
  have hplan : MCTSAgent.plan cfg0 ag0 () = none := by
    simp only [MCTSAgent.plan, MCTS.plan, MCTS.step_by_subtree, ag0, cfg0,
      MCTS.planLoop, hgp]
  refine ⟨rfl, rfl, hgp, hplan, ?_⟩
  simp only [MCTSAgent.act, hplan]

/-- C8 amended: for every iteration count ≥ 1 (so also after any partial
number of iterations ≥ 1 of the anytime loop) and a prior policy
returning a nonempty action list with at least as many probabilities,
`plan` returns exactly the sequence `get_plan` extracts by repeatedly
choosing the temperature-0 action from the final tree's root until a
childless node; that root has children (the first iteration expanded it),
the plan is nonempty, and the agent-level `plan` and `act` succeed.  With
zero iterations the root is never expanded and agent-level plan/act fail
(see the counterexample). -/
theorem plan_anytime_amended {σ : Type} (cfg : MCTSCfg σ) (s : σ) (ag : AgentState)
    (hiter : 1 ≤ cfg.iterations)
    (hplen : ∀ st : σ, (cfg.prior_policy st).1.length ≤ (cfg.prior_policy st).2.length)
    (hpne : ∀ st : σ, (cfg.prior_policy st).1 ≠ []) :
    ∃ a rest root',
      MCTSAgent.plan cfg ag s = some (a :: rest, AgentState.mk root' (some a)) ∧
      a :: rest = MCTS.get_plan root' ∧
      root'.children ≠ [] ∧
      MCTSAgent.act cfg ag s = some a := by
  obtain ⟨root', hloop, _, hch⟩ :=
    planLoop_ok cfg hplen hpne s cfg.iterations
      (MCTS.step_by_subtree ag.previous_action ag.root)
  have hch' := hch hiter
  obtain ⟨a, rest, hgp⟩ := get_plan_cons root' hch'
  have hplan : MCTSAgent.plan cfg ag s =
      some (a :: rest, AgentState.mk root' (some a)) := by
    simp only [MCTSAgent.plan, MCTS.plan, hloop, hgp]
  refine ⟨a, rest, root', hplan, hgp.symm, hch', ?_⟩
  simp only [MCTSAgent.act, hplan]
  rfl

/-- Concrete configuration with iteration count 1 for the C8 witness. -/
def cfg1 : MCTSCfg Unit :=
  MCTSCfg.mk (fun _ _ => ((), 0, false)) (fun _ => ([0], [1]))
    (fun _ => ([0], [1])) (fun _ => 0) 10 1 2

/-- Witness for C8 (amended): with one iteration the agent produces an
action. -/
theorem plan_anytime_amended_witness :
    (MCTSAgent.act cfg1 ag0 ()).isSome = true := by
  obtain ⟨a, rest, root', _, _, _, hact⟩ :=
    plan_anytime_amended cfg1 () ag0 (by decide)
      (by intro st; simp [cfg1]) (by intro st; simp [cfg1])
  rw [hact]
  rfl

end RLAgents
